import Mathlib

/-!
Shallow embedding of `src/scripts/generateHintList.py` (the HotAndCold hint-list
generator) and proofs about it.

Modelling conventions:
* A Python string is modelled as a `List Nat` of Unicode code points (`Word`);
  the helper `str` converts a Lean string literal to this representation.
* Character classes (`str.lower`, `str.isalpha`, the regex `\d`) are modelled on
  the ASCII range, which is the range where the script data lives.
* A Python `set` is modelled as a `List` used only through membership; a Python
  `dict` (insertion ordered) is modelled as an association list, updates keeping
  the original position (`dict_insert`).
* `sorted(..., key=lambda x: x[1], reverse=True)` is a stable descending sort by
  the second component; it is modelled by the stable insertion sort `sortDesc`.
* The NLTK `SnowballStemmer` is an external collaborator, modelled as an
  arbitrary function `Word → Word`.
* Floating point frequencies are modelled as rationals `ℚ`; the script only
  compares them.
-/

set_option maxRecDepth 1000000

namespace HintList

/-- Code points of a Python string. -/
abbrev Word := List Nat

/-- Convert a Lean string literal to its code-point list. -/
def str (s : String) : Word := s.data.map Char.toNat

/-- ASCII model of `str.lower` on one code point. -/
def lowerChar (c : Nat) : Nat := if 65 ≤ c ∧ c ≤ 90 then c + 32 else c

/-- Model of Python `word.lower()`. -/
def lower (w : Word) : Word := w.map lowerChar

/-- ASCII model of the regex class `\d` on one code point. -/
def isDigitChar (c : Nat) : Bool := decide (48 ≤ c ∧ c ≤ 57)

/-- ASCII model of a letter (used for `str.isalpha`). -/
def isAlphaChar (c : Nat) : Bool := decide ((65 ≤ c ∧ c ≤ 90) ∨ (97 ≤ c ∧ c ≤ 122))

/-- Model of Python `word.isalpha()`: nonempty and all characters are letters. -/
def isalpha (w : Word) : Bool := !w.isEmpty && w.all isAlphaChar

/-- Model of the Python regex search for a digit class being a match. -/
def containsDigit (w : Word) : Bool := w.any isDigitChar

/-- Does `w` start with `p`? -/
def startsWith : Word → Word → Bool
  | _, [] => true
  | [], _ :: _ => false
  | c :: w, p :: ps => c == p && startsWith w ps

/-- Model of Python `pat in w` (substring containment). -/
def isSubstr (pat : Word) : Word → Bool
  | [] => startsWith [] pat
  | c :: rest => startsWith (c :: rest) pat || isSubstr pat rest

/-- Model of Python `w.endswith(s)` for a single suffix `s`. -/
def endswith (w s : Word) : Bool := startsWith w.reverse s.reverse

/-- Model of Python `w.endswith(tup)` for a tuple of suffixes. -/
def endswithAny (w : Word) (sufs : List Word) : Bool := sufs.any (endswith w)

/-- Model of the apostrophe-or-hyphen scan from `is_valid_word`: the Python
code iterates over the two-character string of the apostrophe and the hyphen
and tests substring containment of each. -/
def containsApostropheOrHyphen (w : Word) : Bool :=
  (str "\x27-").any (fun p => isSubstr [p] w)

/-- The `base_profanity` set literal from `get_profanity_list`. -/
def base_profanity : List Word :=
  [ -- Sexual terms
   str "fuck", str "shit", str "cock", str "dick", str "penis", str "pussy",
   str "cunt", str "vagina", str "cum", str "semen",
   str "whore", str "slut", str "bitch", str "hooker", str "hoe", str "skank",
   str "queer", str "fag", str "dyke",
   -- Excretory terms
   str "piss", str "poop", str "crap", str "ass", str "arse", str "butt",
   -- Slurs and offensive terms
   str "nigger", str "nigga", str "chink", str "spic", str "wetback",
   str "kike", str "kyke", str "fagot", str "faggot",
   str "retard", str "tard", str "homo", str "tranny", str "twat", str "paki",
   str "gook", str "honky", str "wop", str "dago",
   str "raghead", str "towelhead", str "beaner", str "gringo", str "cracka",
   str "cracker", str "redneck", str "whitey",
   str "zipperhead", str "wigger", str "wigga", str "wog", str "yid",
   -- Religious/blasphemous
   str "goddamn", str "goddam", str "damn", str "hell", str "bastard",
   -- Body parts
   str "tit", str "tits", str "titty", str "boob", str "knocker",
   str "ballsack", str "nuts", str "nutsack",
   -- Other offensive
   str "douche", str "douchebag", str "scumbag", str "motherfucker",
   str "fucker", str "wanker", str "bollocks",
   str "prick", str "schmuck", str "asshole", str "arsehole", str "jackass",
   str "dumbass", str "dipshit",
   str "cocksucker", str "blowjob", str "handjob", str "rimjob", str "jizz",
   str "spunk", str "dildo", str "dong",
   str "wang", str "schlong", str "dingus", str "weiner", str "wiener",
   str "knob", str "pecker", str "chode"]

/-- The `prefixes` set literal from `get_profanity_list` (the set
literal in the source repeats "circle"; as a set this adds nothing). -/
def prefixes : List Word :=
  [str "dumb", str "horse", str "bull", str "chicken", str "jack", str "ass",
   str "mother", str "dog", str "pig",
   str "dick", str "cock", str "pussy", str "cunt", str "butt", str "cum",
   str "jizz", str "circle"]

/-- The `suffixes` set literal from `get_profanity_list`. -/
def suffixes : List Word :=
  [str "hole", str "head", str "face", str "wipe", str "wad", str "stain",
   str "bag", str "sucker", str "licker",
   str "lover", str "fucker", str "eating", str "sucking", str "jockey",
   str "monkey", str "breath", str "brain"]

/-- The `variations` set literal from `get_profanity_list`. -/
def variations : List Word :=
  [str "ing", str "er", str "ed", str "y", str "ier", str "iest", str "in",
   str "ez", str "es", str "s"]

/-- The `profanity_substrings` set literal from `get_profanity_list`. -/
def profanity_substrings : List Word :=
  [str "fuck", str "shit", str "cunt", str "cock", str "dick", str "pussy",
   str "whore", str "slut", str "bitch",
   str "fag", str "nigg", str "spic", str "dyke", str "homo", str "queer",
   str "tard"]

/-- Model of `get_profanity_list`: the base set plus every `p + base`,
`base + s` and `base + v` combination, plus the substring set.  The Python
`set.add` loops are rendered as list unions; only membership is ever used. -/
def get_profanity_list : List Word × List Word :=
  let profanity_set :=
    base_profanity
      ++ prefixes.flatMap (fun p => base_profanity.map (fun base => p ++ base))
      ++ base_profanity.flatMap (fun base => suffixes.map (fun s => base ++ s))
      ++ base_profanity.flatMap (fun word => variations.map (fun v => word ++ v))
  (profanity_set, profanity_substrings)

/-- Model of `is_plural(word, stemmer)`. -/
def is_plural (word : Word) (stemmer : Word → Word) : Bool :=
  if endswithAny word [str "s", str "es", str "ies"] then
    stemmer word != word
  else
    false

/-- Model of `contains_profanity(word, profanity_set, profanity_substrings)`. -/
def contains_profanity (word : Word) (profanity_set profanity_substrings : List Word) :
    Bool :=
  let w := lower word
  if decide (w ∈ profanity_set) then true
  else profanity_substrings.any (fun substring => isSubstr substring w)

/-- Model of `is_base_form(word, stemmer)`. -/
def is_base_form (word : Word) (stemmer : Word → Word) : Bool :=
  let base := stemmer word
  base == word && !endswithAny word [str "ed", str "ing", str "s", str "es", str "ies"]

/-- Model of `is_valid_word(word, valid_words, name_set, stemmer, profanity_set,
profanity_substrings)`. -/
def is_valid_word (word : Word) (valid_words name_set : List Word)
    (stemmer : Word → Word) (profanity_set profanity_substrings : List Word) : Bool :=
  let w := lower word
  if w.length ≤ 2                                -- too short
      || containsDigit w                         -- contains numbers
      || containsApostropheOrHyphen w            -- apostrophes or hyphens
      || decide (w ∈ name_set)                   -- is a name
      || !isalpha w                              -- non-letter characters
      || !is_base_form w stemmer                 -- not in base form
      || contains_profanity w profanity_set profanity_substrings then
    false
  else
    decide (w ∈ valid_words)

/-- The `NUMBER_OF_WORDS` constant. -/
def NUMBER_OF_WORDS : Nat := 20000

/-- Insert `a` into a list that is already sorted by frequency descending. -/
def insertDesc (a : Word × ℚ) : List (Word × ℚ) → List (Word × ℚ)
  | [] => [a]
  | b :: l => if b.2 ≤ a.2 then a :: b :: l else b :: insertDesc a l

/-- Stable sort by frequency descending; models
`sorted(items, key=lambda x: x[1], reverse=True)` (the Python sort is stable,
and so is insertion sort, so the two agree on every input). -/
def sortDesc : List (Word × ℚ) → List (Word × ℚ)
  | [] => []
  | a :: l => insertDesc a (sortDesc l)

/-- Model of `filtered_words[word] = freq` on an insertion-ordered dict:
update in place when the key is present, append otherwise. -/
def dict_insert (d : List (Word × ℚ)) (w : Word) (f : ℚ) : List (Word × ℚ) :=
  if d.any (fun e => decide (e.1 = w)) then
    d.map (fun e => if e.1 = w then (w, f) else e)
  else
    d ++ [(w, f)]

/-- Model of `raw_frequencies`: the corpus sorted by frequency descending and
truncated (the script instantiates `n := NUMBER_OF_WORDS`). -/
def raw_frequencies (freq_dict : List (Word × ℚ)) (n : Nat) : List (Word × ℚ) :=
  (sortDesc freq_dict).take n

/-- One iteration of the loop in `process_word_list` that builds
`filtered_words`: lowercase the word, skip stopwords, skip words failing
`is_valid_word`, store everything else with its frequency. -/
def filter_step (stop_words valid_words name_set : List Word) (stemmer : Word → Word)
    (profanity_set profanity_substrings : List Word)
    (acc : List (Word × ℚ)) (e : Word × ℚ) : List (Word × ℚ) :=
  let word := lower e.1
  if decide (word ∈ stop_words) then acc
  else if !is_valid_word word valid_words name_set stemmer profanity_set
      profanity_substrings then acc
  else dict_insert acc word e.2

/-- Model of the `filtered_words` dict built by the loop in
`process_word_list`. -/
def filtered_words (freq_dict : List (Word × ℚ)) (stop_words valid_words name_set : List Word)
    (stemmer : Word → Word) (profanity_set profanity_substrings : List Word) :
    List (Word × ℚ) :=
  freq_dict.foldl
    (filter_step stop_words valid_words name_set stemmer profanity_set
      profanity_substrings)
    []

/-- Model of `word_frequencies`: the filtered dict sorted by frequency
descending and truncated (the script instantiates `n := NUMBER_OF_WORDS`). -/
def word_frequencies (freq_dict : List (Word × ℚ)) (stop_words valid_words name_set : List Word)
    (stemmer : Word → Word) (profanity_set profanity_substrings : List Word) (n : Nat) :
    List (Word × ℚ) :=
  (sortDesc (filtered_words freq_dict stop_words valid_words name_set stemmer
    profanity_set profanity_substrings)).take n

/-- Spec-side description of the filtered ranked list (§4.4): the corpus
entries whose word is not a stopword and passes the validator, sorted by
frequency descending, truncated to the first `n`. -/
def word_frequencies_spec (freq_dict : List (Word × ℚ)) (stop_words valid_words name_set : List Word)
    (stemmer : Word → Word) (profanity_set profanity_substrings : List Word) (n : Nat) :
    List (Word × ℚ) :=
  (sortDesc (freq_dict.filter (fun e =>
    !decide (e.1 ∈ stop_words)
      && is_valid_word e.1 valid_words name_set stemmer profanity_set
          profanity_substrings))).take n

/-- Spec-side rejection predicate of §4.3, transcribed from the words of the spec:
too short, has a digit, has an apostrophe or hyphen, is a name, has a
non-alphabetic character, is not base form, or contains profanity. -/
abbrev rejected (w : Word) (name_set : List Word) (stemmer : Word → Word)
    (profanity_set profanity_substrings : List Word) : Prop :=
  w.length ≤ 2
    ∨ (∃ c ∈ w, isDigitChar c = true)
    ∨ ((39 : Nat) ∈ w ∨ (45 : Nat) ∈ w)
    ∨ w ∈ name_set
    ∨ (∃ c ∈ w, isAlphaChar c = false)
    ∨ is_base_form w stemmer = false
    ∨ contains_profanity w profanity_set profanity_substrings = true

/-! ### Bridging lemmas for the string model -/

theorem lowerChar_idem (c : Nat) : lowerChar (lowerChar c) = lowerChar c := by
  by_cases h : 65 ≤ c ∧ c ≤ 90
  · simp only [lowerChar, if_pos h]
    rw [if_neg (by omega)]
  · simp only [lowerChar, if_neg h]

theorem lower_idem (w : Word) : lower (lower w) = lower w := by
  induction w with
  | nil => rfl
  | cons c w ih =>
    simp only [lower, List.map_cons] at ih ⊢
    rw [lowerChar_idem, ih]

theorem lower_append (a b : Word) : lower (a ++ b) = lower a ++ lower b :=
  List.map_append lowerChar a b

theorem startsWith_iff (w p : Word) : startsWith w p = true ↔ ∃ t, w = p ++ t := by
  induction p generalizing w with
  | nil => simp [startsWith]
  | cons c p ih =>
    cases w with
    | nil => simp [startsWith]
    | cons a w =>
      simp only [startsWith, Bool.and_eq_true, beq_iff_eq, ih, List.cons_append,
        List.cons.injEq]
      constructor
      · rintro ⟨rfl, t, rfl⟩
        exact ⟨t, rfl, rfl⟩
      · rintro ⟨t, rfl, rfl⟩
        exact ⟨rfl, t, rfl⟩

theorem isSubstr_iff (p w : Word) : isSubstr p w = true ↔ ∃ l r, w = l ++ p ++ r := by
  induction w with
  | nil =>
    simp only [isSubstr, startsWith_iff]
    constructor
    · rintro ⟨t, ht⟩
      exact ⟨[], t, ht⟩
    · rintro ⟨l, r, h⟩
      rw [eq_comm, List.append_eq_nil] at h
      obtain ⟨h1, rfl⟩ := h
      rw [List.append_eq_nil] at h1
      exact ⟨[], by simp [h1.1, h1.2]⟩
  | cons c rest ih =>
    simp only [isSubstr, Bool.or_eq_true, startsWith_iff, ih]
    constructor
    · rintro (⟨t, ht⟩ | ⟨l, r, h⟩)
      · exact ⟨[], t, by simpa using ht⟩
      · exact ⟨c :: l, r, by simp [h]⟩
    · rintro ⟨l, r, h⟩
      cases l with
      | nil => exact Or.inl ⟨r, by simpa using h⟩
      | cons a l =>
        rw [List.cons_append, List.cons_append, List.cons.injEq] at h
        exact Or.inr ⟨l, r, h.2⟩

theorem isSubstr_singleton_iff (c : Nat) (w : Word) :
    isSubstr [c] w = true ↔ c ∈ w := by
  rw [isSubstr_iff]
  constructor
  · rintro ⟨l, r, rfl⟩
    simp
  · intro h
    obtain ⟨s, t, rfl⟩ := List.append_of_mem h
    exact ⟨s, t, by simp⟩

theorem endswith_iff (w s : Word) : endswith w s = true ↔ ∃ t, w = t ++ s := by
  rw [endswith, startsWith_iff]
  constructor
  · rintro ⟨t, ht⟩
    refine ⟨t.reverse, ?_⟩
    have := congrArg List.reverse ht
    simpa using this
  · rintro ⟨t, rfl⟩
    exact ⟨t.reverse, by simp⟩

theorem mem_insertDesc (x a : Word × ℚ) (l : List (Word × ℚ)) :
    x ∈ insertDesc a l ↔ x = a ∨ x ∈ l := by
  induction l with
  | nil => simp [insertDesc]
  | cons b l ih =>
    simp only [insertDesc]
    split
    · simp
    · simp only [List.mem_cons, ih]
      tauto

theorem pairwise_insertDesc (a : Word × ℚ) (l : List (Word × ℚ))
    (h : l.Pairwise (fun x y => y.2 ≤ x.2)) :
    (insertDesc a l).Pairwise (fun x y => y.2 ≤ x.2) := by
  induction l with
  | nil => simp [insertDesc]
  | cons b l ih =>
    rw [List.pairwise_cons] at h
    simp only [insertDesc]
    split
    · rename_i hba
      rw [List.pairwise_cons]
      refine ⟨?_, List.pairwise_cons.mpr h⟩
      intro x hx
      rcases List.mem_cons.mp hx with rfl | hx
      · exact hba
      · exact le_trans (h.1 x hx) hba
    · rename_i hba
      rw [List.pairwise_cons]
      refine ⟨?_, ih h.2⟩
      intro x hx
      rcases (mem_insertDesc x a l).mp hx with rfl | hx
      · exact le_of_not_le hba
      · exact h.1 x hx

theorem pairwise_sortDesc (l : List (Word × ℚ)) :
    (sortDesc l).Pairwise (fun x y => y.2 ≤ x.2) := by
  induction l with
  | nil => simp [sortDesc]
  | cons a l ih => exact pairwise_insertDesc a (sortDesc l) ih

/-! ### The filtering loop as a filter -/

theorem dict_insert_of_not_mem (d : List (Word × ℚ)) (w : Word) (f : ℚ)
    (h : ∀ e ∈ d, e.1 ≠ w) : dict_insert d w f = d ++ [(w, f)] := by
  rw [dict_insert, if_neg]
  intro hc
  obtain ⟨e, he, heq⟩ := List.any_eq_true.mp hc
  exact h e he (of_decide_eq_true heq)

theorem filter_step_stop (stop_words valid_words name_set : List Word)
    (stemmer : Word → Word) (profanity_set profanity_substrings : List Word)
    (acc : List (Word × ℚ)) (e : Word × ℚ) (h : lower e.1 ∈ stop_words) :
    filter_step stop_words valid_words name_set stemmer profanity_set
      profanity_substrings acc e = acc := by
  rw [filter_step]
  simp only [decide_eq_true_eq]
  rw [if_pos h]

theorem filter_step_invalid (stop_words valid_words name_set : List Word)
    (stemmer : Word → Word) (profanity_set profanity_substrings : List Word)
    (acc : List (Word × ℚ)) (e : Word × ℚ) (h : lower e.1 ∉ stop_words)
    (hv : is_valid_word (lower e.1) valid_words name_set stemmer profanity_set
      profanity_substrings = false) :
    filter_step stop_words valid_words name_set stemmer profanity_set
      profanity_substrings acc e = acc := by
  rw [filter_step]
  simp only [decide_eq_true_eq]
  rw [if_neg h, if_pos (by rw [hv]; rfl)]

theorem filter_step_keep (stop_words valid_words name_set : List Word)
    (stemmer : Word → Word) (profanity_set profanity_substrings : List Word)
    (acc : List (Word × ℚ)) (e : Word × ℚ) (h : lower e.1 ∉ stop_words)
    (hv : is_valid_word (lower e.1) valid_words name_set stemmer profanity_set
      profanity_substrings = true) :
    filter_step stop_words valid_words name_set stemmer profanity_set
      profanity_substrings acc e = dict_insert acc (lower e.1) e.2 := by
  rw [filter_step]
  simp only [decide_eq_true_eq]
  rw [if_neg h, if_neg (by rw [hv]; exact Bool.false_ne_true)]

theorem foldl_filter_step (stop_words valid_words name_set : List Word)
    (stemmer : Word → Word) (profanity_set profanity_substrings : List Word)
    (corpus : List (Word × ℚ)) :
    ∀ acc : List (Word × ℚ),
      (∀ e ∈ corpus, lower e.1 = e.1) →
      corpus.Pairwise (fun a b => a.1 ≠ b.1) →
      (∀ e ∈ corpus, ∀ a ∈ acc, a.1 ≠ e.1) →
      corpus.foldl (filter_step stop_words valid_words name_set stemmer
          profanity_set profanity_substrings) acc
        = acc ++ corpus.filter (fun e =>
            !decide (e.1 ∈ stop_words)
              && is_valid_word e.1 valid_words name_set stemmer profanity_set
                  profanity_substrings) := by
  induction corpus with
  | nil =>
    intro acc _ _ _
    simp
  | cons e rest ih =>
    intro acc hlow huniq hdisj
    have hle : lower e.1 = e.1 := hlow e (List.mem_cons_self e rest)
    have hlow' : ∀ x ∈ rest, lower x.1 = x.1 :=
      fun x hx => hlow x (List.mem_cons_of_mem e hx)
    rw [List.pairwise_cons] at huniq
    rw [List.foldl_cons, List.filter_cons]
    by_cases hstop : e.1 ∈ stop_words
    · rw [filter_step_stop _ _ _ _ _ _ _ _ (by rw [hle]; exact hstop)]
      rw [if_neg (by simp [hstop])]
      exact ih acc hlow' huniq.2
        (fun x hx a ha => hdisj x (List.mem_cons_of_mem e hx) a ha)
    · by_cases hvalid : is_valid_word e.1 valid_words name_set stemmer
          profanity_set profanity_substrings = true
      · rw [filter_step_keep _ _ _ _ _ _ _ _ (by rw [hle]; exact hstop) (by rw [hle]; exact hvalid)]
        rw [hle, dict_insert_of_not_mem _ _ _
          (fun a ha => hdisj e (List.mem_cons_self e rest) a ha)]
        rw [if_pos (by simp [hstop, hvalid])]
        rw [ih (acc ++ [(e.1, e.2)]) hlow' huniq.2 ?_]
        · simp
        · intro x hx a ha
          rcases List.mem_append.mp ha with ha | ha
          · exact hdisj x (List.mem_cons_of_mem e hx) a ha
          · rcases List.mem_singleton.mp ha with rfl
            exact huniq.1 x hx
      · have hv : is_valid_word e.1 valid_words name_set stemmer profanity_set
            profanity_substrings = false := by
          cases h2 : is_valid_word e.1 valid_words name_set stemmer profanity_set
            profanity_substrings
          · rfl
          · exact absurd h2 hvalid
        rw [filter_step_invalid _ _ _ _ _ _ _ _ (by rw [hle]; exact hstop) (by rw [hle]; exact hv)]
        rw [if_neg (by simp [hv])]
        exact ih acc hlow' huniq.2
          (fun x hx a ha => hdisj x (List.mem_cons_of_mem e hx) a ha)

theorem containsApostropheOrHyphen_iff (w : Word) :
    containsApostropheOrHyphen w = true ↔ ((39 : Nat) ∈ w ∨ (45 : Nat) ∈ w) := by
  rw [containsApostropheOrHyphen, show str "\x27-" = [(39 : Nat), 45] from by decide]
  simp only [List.any_eq_true, isSubstr_singleton_iff, List.mem_cons,
    List.not_mem_nil, or_false]
  constructor
  · rintro ⟨p, rfl | rfl, hp⟩
    · exact Or.inl hp
    · exact Or.inr hp
  · rintro (h | h)
    · exact ⟨39, Or.inl rfl, h⟩
    · exact ⟨45, Or.inr rfl, h⟩

theorem isalpha_eq_false_iff (w : Word) :
    isalpha w = false ↔ (w = [] ∨ ∃ c ∈ w, isAlphaChar c = false) := by
  simp only [isalpha, Bool.and_eq_false_iff, Bool.not_eq_false',
    List.isEmpty_iff, List.all_eq_false, Bool.not_eq_true]

theorem reject_cond_iff (w : Word) (name_set : List Word) (stemmer : Word → Word)
    (profanity_set profanity_substrings : List Word) :
    (decide (w.length ≤ 2) || containsDigit w || containsApostropheOrHyphen w
      || decide (w ∈ name_set) || !isalpha w || !is_base_form w stemmer
      || contains_profanity w profanity_set profanity_substrings) = true ↔
      rejected w name_set stemmer profanity_set profanity_substrings := by
  simp only [Bool.or_eq_true, decide_eq_true_eq, Bool.not_eq_true',
    containsApostropheOrHyphen_iff, isalpha_eq_false_iff, containsDigit,
    List.any_eq_true, rejected, or_assoc]
  have hnil : w = [] → w.length ≤ 2 := fun h => by simp [h]
  itauto

/-! ### Structure of the profanity set -/

theorem mem_profanity_set (w : Word) :
    w ∈ (get_profanity_list).1 ↔
      (w ∈ base_profanity
        ∨ (∃ p ∈ prefixes, ∃ b ∈ base_profanity, w = p ++ b)
        ∨ (∃ b ∈ base_profanity, ∃ s ∈ suffixes, w = b ++ s)
        ∨ (∃ b ∈ base_profanity, ∃ v ∈ variations, w = b ++ v)) := by
  simp only [get_profanity_list, List.mem_append, List.mem_flatMap, List.mem_map]
  constructor
  · rintro (((h | ⟨p, hp, b, hb, rfl⟩) | ⟨b, hb, s, hs, rfl⟩) | ⟨b, hb, v, hv, rfl⟩)
    · exact Or.inl h
    · exact Or.inr (Or.inl ⟨p, hp, b, hb, rfl⟩)
    · exact Or.inr (Or.inr (Or.inl ⟨b, hb, s, hs, rfl⟩))
    · exact Or.inr (Or.inr (Or.inr ⟨b, hb, v, hv, rfl⟩))
  · rintro (h | ⟨p, hp, b, hb, rfl⟩ | ⟨b, hb, s, hs, rfl⟩ | ⟨b, hb, v, hv, rfl⟩)
    · exact Or.inl (Or.inl (Or.inl h))
    · exact Or.inl (Or.inl (Or.inr ⟨p, hp, b, hb, rfl⟩))
    · exact Or.inl (Or.inr ⟨b, hb, s, hs, rfl⟩)
    · exact Or.inr ⟨b, hb, v, hv, rfl⟩

theorem base_profanity_lower : ∀ w ∈ base_profanity, lower w = w := by decide

theorem prefixes_lower : ∀ w ∈ prefixes, lower w = w := by decide

theorem suffixes_lower : ∀ w ∈ suffixes, lower w = w := by decide

theorem variations_lower : ∀ w ∈ variations, lower w = w := by decide

theorem profanity_set_lower (w : Word) (h : w ∈ (get_profanity_list).1) :
    lower w = w := by
  rcases (mem_profanity_set w).mp h with
    hb | ⟨p, hp, b, hb, rfl⟩ | ⟨b, hb, s, hs, rfl⟩ | ⟨b, hb, v, hv, rfl⟩
  · exact base_profanity_lower w hb
  · rw [lower_append, base_profanity_lower b hb, prefixes_lower p hp]
  · rw [lower_append, base_profanity_lower b hb, suffixes_lower s hs]
  · rw [lower_append, base_profanity_lower b hb, variations_lower v hv]

/-! ### Claim theorems -/

/-- C5: for every word and every stemmer, `is_base_form` returns true iff the
stem of the word equals the word and the word does not end in any of the
inflectional suffixes "ed", "ing", "s", "es", "ies". -/
theorem is_base_form_spec (word : Word) (stemmer : Word → Word) :
    is_base_form word stemmer = true ↔
      (stemmer word = word ∧
        ∀ s ∈ [str "ed", str "ing", str "s", str "es", str "ies"],
          ¬ ∃ t, word = t ++ s) := by
  simp only [is_base_form, Bool.and_eq_true, beq_iff_eq, Bool.not_eq_true',
    endswithAny, List.any_eq_false, endswith_iff]

/-- C9: for every word and every stemmer, `is_plural` returns true iff the word
ends in one of "s", "es", "ies" and stemming it yields a different string;
otherwise it returns false. -/
theorem is_plural_spec (word : Word) (stemmer : Word → Word) :
    is_plural word stemmer = true ↔
      ((∃ s ∈ [str "s", str "es", str "ies"], ∃ t, word = t ++ s) ∧
        stemmer word ≠ word) := by
  simp only [is_plural]
  split
  · rename_i h
    rw [endswithAny, List.any_eq_true] at h
    simp only [endswith_iff] at h
    simp only [bne_iff_ne, ne_eq]
    constructor
    · intro hne
      exact ⟨h, hne⟩
    · intro hc
      exact hc.2
  · rename_i h
    simp only [Bool.false_eq_true, false_iff, not_and]
    intro hs
    exact absurd (by rw [endswithAny, List.any_eq_true]; simpa only [endswith_iff] using hs) h

/-- C10: `is_valid_word` is case-insensitive in its word argument, because the
word is lowercased before any check is applied. -/
theorem is_valid_word_lower (word : Word) (valid_words name_set : List Word)
    (stemmer : Word → Word) (profanity_set profanity_substrings : List Word) :
    is_valid_word word valid_words name_set stemmer profanity_set profanity_substrings
      = is_valid_word (lower word) valid_words name_set stemmer profanity_set
          profanity_substrings := by
  simp only [is_valid_word, lower_idem]

/-- C3: the profanity set produced by `get_profanity_list` is exactly the
closure of the base set under prefixing with a member of `prefixes`, suffixing
with a member of `suffixes`, and suffixing with a member of `variations`. -/
theorem profanity_set_closure (w : Word) :
    w ∈ (get_profanity_list).1 ↔
      (w ∈ base_profanity
        ∨ (∃ p ∈ prefixes, ∃ b ∈ base_profanity, w = p ++ b)
        ∨ (∃ b ∈ base_profanity, ∃ s ∈ suffixes, w = b ++ s)
        ∨ (∃ b ∈ base_profanity, ∃ v ∈ variations, w = b ++ v)) :=
  mem_profanity_set w

/-- C4: `contains_profanity` is true iff the lowercased word is a member of the
profanity set or some profanity substring occurs inside the lowercased word;
in particular it is true on every member of the generated profanity set. -/
theorem contains_profanity_spec (word : Word) (ps pss : List Word) :
    (contains_profanity word ps pss = true ↔
      (lower word ∈ ps ∨ ∃ s ∈ pss, ∃ l r, lower word = l ++ s ++ r)) ∧
    (word ∈ (get_profanity_list).1 →
      contains_profanity word (get_profanity_list).1 (get_profanity_list).2 = true) := by
  constructor
  · simp only [contains_profanity]
    split
    · rename_i h
      constructor
      · intro _
        exact Or.inl (of_decide_eq_true h)
      · intro _
        rfl
    · rename_i h
      simp only [List.any_eq_true, isSubstr_iff]
      constructor
      · rintro ⟨s, hs, l, r, hw⟩
        exact Or.inr ⟨s, hs, l, r, hw⟩
      · rintro (hmem | ⟨s, hs, l, r, hw⟩)
        · exact absurd (decide_eq_true hmem) h
        · exact ⟨s, hs, l, r, hw⟩
  · intro hmem
    have hl : lower word = word := profanity_set_lower word hmem
    simp only [contains_profanity, hl]
    rw [if_pos (decide_eq_true hmem)]

/-- C1: `is_valid_word` returns false whenever any rejection condition holds on
the lowercased word (length at most 2, a digit, an apostrophe or hyphen,
membership in the name set, a non-alphabetic character, not base form, or
profanity); when none holds, it returns true iff the lowercased word is in the
vocabulary set. -/
theorem is_valid_word_spec (word : Word) (valid_words name_set : List Word)
    (stemmer : Word → Word) (profanity_set profanity_substrings : List Word) :
    (rejected (lower word) name_set stemmer profanity_set profanity_substrings →
      is_valid_word word valid_words name_set stemmer profanity_set
        profanity_substrings = false) ∧
    (¬ rejected (lower word) name_set stemmer profanity_set profanity_substrings →
      (is_valid_word word valid_words name_set stemmer profanity_set
        profanity_substrings = true ↔ lower word ∈ valid_words)) := by
  constructor
  · intro hr
    simp only [is_valid_word]
    rw [if_pos ((reject_cond_iff (lower word) name_set stemmer profanity_set
      profanity_substrings).mpr hr)]
  · intro hr
    simp only [is_valid_word]
    rw [if_neg (fun hc => hr ((reject_cond_iff (lower word) name_set stemmer
      profanity_set profanity_substrings).mp hc))]
    simp only [decide_eq_true_eq]

/-- Witness for C1 at the accepted word "apple". -/
theorem is_valid_word_spec_witness :
    is_valid_word (str "apple") [str "apple"] [] id [] [] = true :=
  ((is_valid_word_spec (str "apple") [str "apple"] [] id [] []).2
    (by decide)).mpr (by decide)

/-- Witness for C4 at the concrete profanity-set member "fuck". -/
theorem contains_profanity_spec_witness :
    contains_profanity (str "fuck") (get_profanity_list).1 (get_profanity_list).2
      = true :=
  (contains_profanity_spec (str "fuck") [] []).2 (by decide)

/-- C6: for every input corpus, both produced sequences are sorted
non-increasing by frequency and each has length at most
`NUMBER_OF_WORDS = 20000`. -/
theorem ranked_lists_sorted_bounded (freq_dict : List (Word × ℚ))
    (stop_words valid_words name_set : List Word) (stemmer : Word → Word)
    (profanity_set profanity_substrings : List Word) :
    ((raw_frequencies freq_dict NUMBER_OF_WORDS).Pairwise (fun a b => b.2 ≤ a.2) ∧
      (raw_frequencies freq_dict NUMBER_OF_WORDS).length ≤ NUMBER_OF_WORDS) ∧
    ((word_frequencies freq_dict stop_words valid_words name_set stemmer
        profanity_set profanity_substrings NUMBER_OF_WORDS).Pairwise
          (fun a b => b.2 ≤ a.2) ∧
      (word_frequencies freq_dict stop_words valid_words name_set stemmer
        profanity_set profanity_substrings NUMBER_OF_WORDS).length
          ≤ NUMBER_OF_WORDS) := by
  refine ⟨⟨?_, ?_⟩, ?_, ?_⟩
  · exact List.Pairwise.sublist (List.take_sublist _ _) (pairwise_sortDesc _)
  · exact List.length_take_le _ _
  · exact List.Pairwise.sublist (List.take_sublist _ _) (pairwise_sortDesc _)
  · exact List.length_take_le _ _

/-- C2: when the corpus words are normalized (lowercase) and pairwise distinct,
the filtered ranked list is exactly the corpus entries that are neither
stopwords nor rejected by the validator, sorted by frequency descending and
truncated to the first `NUMBER_OF_WORDS = 20000` entries. -/
theorem word_frequencies_eq_spec (freq_dict : List (Word × ℚ))
    (stop_words valid_words name_set : List Word) (stemmer : Word → Word)
    (profanity_set profanity_substrings : List Word)
    (hlow : ∀ e ∈ freq_dict, lower e.1 = e.1)
    (huniq : freq_dict.Pairwise (fun a b => a.1 ≠ b.1)) :
    word_frequencies freq_dict stop_words valid_words name_set stemmer
        profanity_set profanity_substrings NUMBER_OF_WORDS
      = word_frequencies_spec freq_dict stop_words valid_words name_set stemmer
          profanity_set profanity_substrings NUMBER_OF_WORDS := by
  rw [word_frequencies, word_frequencies_spec, filtered_words,
    foldl_filter_step stop_words valid_words name_set stemmer profanity_set
      profanity_substrings freq_dict [] hlow huniq (by simp),
    List.nil_append]

/-- Witness for C2 at a concrete one-entry corpus. -/
theorem word_frequencies_eq_spec_witness :
    word_frequencies [(str "dog", 1)] [] [] [] id [] [] NUMBER_OF_WORDS
      = word_frequencies_spec [(str "dog", 1)] [] [] [] id [] [] NUMBER_OF_WORDS :=
  word_frequencies_eq_spec [(str "dog", 1)] [] [] [] id [] []
    (by decide) (by decide)

/-- C8 counterexample: `contains_profanity("hellscape")` on the generated sets
is not true — "hell" is in the exact-match profanity set but not in the
substring set, and no substring-set member occurs in "hellscape". -/
theorem contains_profanity_hellscape_refuted :
    ¬ (contains_profanity (str "hellscape") (get_profanity_list).1
        (get_profanity_list).2 = true) := by decide

/-- C8 amended: `contains_profanity("hellscape")` is false for the sets
produced by `get_profanity_list`. -/
theorem contains_profanity_hellscape :
    contains_profanity (str "hellscape") (get_profanity_list).1
      (get_profanity_list).2 = false := by decide

/-- C7: on the five-entry example corpus, with stopwords {"the"}, vocabulary
{"apple", "cats"} and limit 10, the filtered output is exactly [("apple", 80)],
for any stemmer that leaves "apple" unchanged. -/
theorem end_to_end_example (stemmer : Word → Word)
    (h : stemmer (str "apple") = str "apple") :
    word_frequencies
        [(str "the", 100), (str "cats", 90), (str "apple", 80), (str "fuck", 70),
          (str "xyz123", 60)]
        [str "the"] [str "apple", str "cats"] [] stemmer
        (get_profanity_list).1 (get_profanity_list).2 10
      = [(str "apple", 80)] := by
  have hcats : is_valid_word (str "cats") [str "apple", str "cats"] [] stemmer
      (get_profanity_list).1 (get_profanity_list).2 = false := by
    have hbase : is_base_form (lower (str "cats")) stemmer = false := by
      rw [show lower (str "cats") = str "cats" from by decide]
      simp only [is_base_form]
      rw [show endswithAny (str "cats") [str "ed", str "ing", str "s", str "es",
        str "ies"] = true from by decide]
      simp
    simp only [is_valid_word, hbase, Bool.not_false, Bool.or_true, Bool.true_or]
    simp
  have hfuck : is_valid_word (str "fuck") [str "apple", str "cats"] [] stemmer
      (get_profanity_list).1 (get_profanity_list).2 = false := by
    have hprof : contains_profanity (lower (str "fuck")) (get_profanity_list).1
        (get_profanity_list).2 = true := by decide
    simp only [is_valid_word, hprof, Bool.or_true]
    simp
  have hxyz : is_valid_word (str "xyz123") [str "apple", str "cats"] [] stemmer
      (get_profanity_list).1 (get_profanity_list).2 = false := by
    have hdig : containsDigit (lower (str "xyz123")) = true := by decide
    simp only [is_valid_word, hdig, Bool.or_true, Bool.true_or]
    simp
  have happle : is_valid_word (str "apple") [str "apple", str "cats"] [] stemmer
      (get_profanity_list).1 (get_profanity_list).2 = true := by
    have hl : lower (str "apple") = str "apple" := by decide
    have hbase : is_base_form (str "apple") stemmer = true := by
      simp only [is_base_form, h]
      decide
    have hprof : contains_profanity (str "apple") (get_profanity_list).1
        (get_profanity_list).2 = false := by decide
    simp only [is_valid_word, hl, hbase, hprof, Bool.not_true, Bool.or_false]
    decide
  rw [word_frequencies, filtered_words,
    foldl_filter_step _ _ _ _ _ _ _ [] (by decide) (by decide) (by simp),
    List.nil_append]
  simp only [List.filter_cons, List.filter_nil, hcats, hfuck, hxyz, happle,
    show decide (str "the" ∈ [str "the"]) = true from by decide,
    show decide (str "cats" ∈ [str "the"]) = false from by decide,
    show decide (str "apple" ∈ [str "the"]) = false from by decide,
    show decide (str "fuck" ∈ [str "the"]) = false from by decide,
    show decide (str "xyz123" ∈ [str "the"]) = false from by decide,
    Bool.not_true, Bool.not_false, Bool.false_and, Bool.true_and,
    Bool.and_false, Bool.and_true]
  decide

/-- Witness for C7 with the identity stemmer. -/
theorem end_to_end_example_witness :
    word_frequencies
        [(str "the", 100), (str "cats", 90), (str "apple", 80), (str "fuck", 70),
          (str "xyz123", 60)]
        [str "the"] [str "apple", str "cats"] [] id
        (get_profanity_list).1 (get_profanity_list).2 10
      = [(str "apple", 80)] :=
  end_to_end_example id rfl

end HintList
